import Mathlib

/-!
Verification of the userland process-entry trampoline `_start` in
`userland/libtock/crt1.c`.

The function is declared `naked`/`noreturn` and its runtime behavior is a
four-instruction inline assembly block

  pc 0 : mov r9, sp        -- set the global-data (GOT) pointer from sp
  pc 1 : bl main           -- call the application entry routine
  pc 2 : bl yield          -- label 1: call the yield primitive
  pc 3 : b 1b              -- branch back to pc 2, forever

followed by C code that the assembly never falls through to (it exists only
so that link-time optimization keeps the symbols `main` and `yield` alive):

  pc 4 : main();           -- dead call in _start
  pc 5 : yield();          -- dead call in _start
  pc 6 : end of _start (falling off the end would return to the caller)

and a second never-called helper `lto_asm_references_dummy_function` whose
body is

  pc 7 : main();           -- dead call in the LTO dummy
  pc 8 : yield();          -- dead call in the LTO dummy
  pc 9 : end of the LTO dummy

We embed this as a labeled small-step transition system: locations are the
instruction positions above together with "inside main" / "inside yield"
call states, events record every observable action (the single register
write, calls and returns), and the handoff parameters `(mem_start,
app_heap_break, kernel_memory_break)` are carried in the state so that
their non-use is provable.
-/

namespace Crt1

/-- Machine words (addresses, register contents). -/
abbrev Word := Nat

/-- The three handoff parameters the kernel passes to `_start` in
r0, r1, r2: `void* mem_start, void* app_heap_break, void* kernel_memory_break`. -/
structure Handoff where
  mem_start : Word
  app_heap_break : Word
  kernel_memory_break : Word
deriving DecidableEq, Repr

/-- Control location: an instruction position of the code listing above, or
inside a callee (`inMain r` / `inYield r` record the return position the
`bl` established), or control returned to the caller of `_start`. -/
inductive Loc where
  | instr (pc : Nat)
  | inMain (retpc : Nat)
  | inYield (retpc : Nat)
  | returned
deriving DecidableEq, Repr

/-- Machine state of the trampoline model: control location, the r9
register (`none` = not yet written by the trampoline), the stack pointer,
and the three handoff parameters. -/
structure St where
  loc : Loc
  r9 : Option Word
  sp : Word
  args : Handoff
deriving DecidableEq, Repr

/-- Observable events of the trampoline: the write of r9, the call of and
return from `main` (with its `int` result), the call of and return from
`yield`, and the internal branch of the loop. -/
inductive Event where
  | writeR9 (v : Word)
  | callMain
  | retMain (rv : Int)
  | callYield
  | retYield
  | branch
deriving DecidableEq, Repr

/-- Small-step semantics of `_start` (and of the LTO dummy body), one
constructor per instruction of the listing above.  A `bl` records the
following position as the return position; a return from a callee resumes
there.  Falling off the end of either function transfers control back to
the caller. -/
inductive Step : St → Event → St → Prop where
  | mov {s : St} (h : s.loc = .instr 0) :
      Step s (.writeR9 s.sp) { s with loc := .instr 1, r9 := some s.sp }
  | callMain {s : St} (h : s.loc = .instr 1) :
      Step s .callMain { s with loc := .inMain 2 }
  | retMain {s : St} (rv : Int) {r : Nat} (h : s.loc = .inMain r) :
      Step s (.retMain rv) { s with loc := .instr r }
  | callYield {s : St} (h : s.loc = .instr 2) :
      Step s .callYield { s with loc := .inYield 3 }
  | retYield {s : St} {r : Nat} (h : s.loc = .inYield r) :
      Step s .retYield { s with loc := .instr r }
  | branch {s : St} (h : s.loc = .instr 3) :
      Step s .branch { s with loc := .instr 2 }
  | deadCallMain {s : St} (h : s.loc = .instr 4) :
      Step s .callMain { s with loc := .inMain 5 }
  | deadCallYield {s : St} (h : s.loc = .instr 5) :
      Step s .callYield { s with loc := .inYield 6 }
  | fallOff {s : St} (h : s.loc = .instr 6) :
      Step s .branch { s with loc := .returned }
  | dummyCallMain {s : St} (h : s.loc = .instr 7) :
      Step s .callMain { s with loc := .inMain 8 }
  | dummyCallYield {s : St} (h : s.loc = .instr 8) :
      Step s .callYield { s with loc := .inYield 9 }
  | dummyRet {s : St} (h : s.loc = .instr 9) :
      Step s .branch { s with loc := .returned }

/-- Finite executions: `Trace s es s'` says the machine can go from `s` to
`s'` emitting exactly the event list `es`. -/
inductive Trace : St → List Event → St → Prop where
  | refl (s : St) : Trace s [] s
  | cons {s : St} {e : Event} {s' : St} {es : List Event} {s'' : St} :
      Step s e s' → Trace s' es s'' → Trace s (e :: es) s''

/-- The state in which the kernel starts the process: control at the first
instruction of `_start`, r9 not yet written, a given initial stack pointer,
and the handoff parameters in r0-r2. -/
def initSt (args : Handoff) (sp0 : Word) : St :=
  { loc := .instr 0, r9 := none, sp := sp0, args := args }

/-- Event list of `n` turns of the yield loop taken from position pc 2. -/
def cycles : Nat → List Event
  | 0 => []
  | n + 1 => cycles n ++ [.callYield, .retYield, .branch]

/-- Events of the straight-line part of every execution that reaches the
yield loop: the r9 write, the call of `main`, and its return with value `rv`. -/
def pre3 (sp0 : Word) (rv : Int) : List Event :=
  [.writeR9 sp0, .callMain, .retMain rv]

/-- Exact characterization of the reachable (event list, location) pairs of
the trampoline started with stack pointer `sp0`. -/
def shapeOf (sp0 : Word) (es : List Event) (l : Loc) : Prop :=
  (es = [] ∧ l = .instr 0) ∨
  (es = [.writeR9 sp0] ∧ l = .instr 1) ∨
  (es = [.writeR9 sp0, .callMain] ∧ l = .inMain 2) ∨
  (∃ rv n, es = pre3 sp0 rv ++ cycles n ∧ l = .instr 2) ∨
  (∃ rv n, es = pre3 sp0 rv ++ (cycles n ++ [.callYield]) ∧ l = .inYield 3) ∨
  (∃ rv n, es = pre3 sp0 rv ++ (cycles n ++ [.callYield, .retYield]) ∧ l = .instr 3)

/-- Reachability invariant: the stack pointer and the handoff parameters
never change, r9 is unwritten exactly at the initial instruction and holds
the initial stack pointer everywhere else, and the event list and location
have one of the six shapes of `shapeOf`. -/
def Inv (args : Handoff) (sp0 : Word) (es : List Event) (s : St) : Prop :=
  s.sp = sp0 ∧ s.args = args ∧
  ((s.loc = .instr 0 ∧ s.r9 = none) ∨ (s.loc ≠ .instr 0 ∧ s.r9 = some sp0)) ∧
  shapeOf sp0 es s.loc

/-- States of the terminal yield loop (`Idle`): about to call yield, inside
yield, or at the back branch. -/
def InLoop (s : St) : Prop :=
  s.loc = .instr 2 ∨ s.loc = .inYield 3 ∨ s.loc = .instr 3

/-- Recognizes the r9-write event. -/
def isWrite : Event → Bool
  | .writeR9 _ => true
  | _ => false

theorem trace_append {s t u : St} {es₁ es₂ : List Event}
    (h₁ : Trace s es₁ t) (h₂ : Trace t es₂ u) : Trace s (es₁ ++ es₂) u := by
  induction h₁ with
  | refl => simpa using h₂
  | cons hs _ ih => exact Trace.cons hs (ih h₂)

theorem trace_nil_eq {s s' : St} (h : Trace s [] s') : s' = s := by
  cases h; rfl

theorem trace_cons_inv {s s'' : St} {e : Event} {es : List Event}
    (h : Trace s (e :: es) s'') : ∃ s', Step s e s' ∧ Trace s' es s'' := by
  cases h with
  | cons hs ht => exact ⟨_, hs, ht⟩

theorem trace_append_inv {s s'' : St} {e : Event} (es₁ : List Event) {es₂ : List Event}
    (h : Trace s (es₁ ++ e :: es₂) s'') :
    ∃ sm sm', Trace s es₁ sm ∧ Step sm e sm' ∧ Trace sm' es₂ s'' := by
  induction es₁ generalizing s with
  | nil =>
    rcases trace_cons_inv h with ⟨s', hs, ht⟩
    exact ⟨s, s', Trace.refl s, hs, ht⟩
  | cons e₁ es₁ ih =>
    rcases trace_cons_inv h with ⟨s₁, hs₁, ht₁⟩
    rcases ih ht₁ with ⟨sm, sm', hm, hstep, htail⟩
    exact ⟨sm, sm', Trace.cons hs₁ hm, hstep, htail⟩

theorem mem_cycles {e : Event} {n : Nat} (h : e ∈ cycles n) :
    e = .callYield ∨ e = .retYield ∨ e = .branch := by
  induction n with
  | zero => simp [cycles] at h
  | succ n ih =>
    simp only [cycles, List.mem_append] at h
    rcases h with h | h
    · exact ih h
    · simp only [List.mem_cons, List.not_mem_nil, or_false] at h
      tauto

theorem count_callMain_cycles (n : Nat) : (cycles n).count Event.callMain = 0 := by
  induction n with
  | zero => simp [cycles]
  | succ n ih => simp [cycles, List.count_append, ih]

theorem count_callYield_cycles (n : Nat) : (cycles n).count Event.callYield = n := by
  induction n with
  | zero => simp [cycles]
  | succ n ih => simp [cycles, List.count_append, ih]

theorem countP_isWrite_cycles (n : Nat) : (cycles n).countP isWrite = 0 := by
  induction n with
  | zero => simp [cycles]
  | succ n ih => simp [cycles, List.countP_append, ih, isWrite, List.countP_cons]

theorem retMain_notMem_cycles (rv : Int) (n : Nat) : Event.retMain rv ∉ cycles n := by
  intro h
  rcases mem_cycles h with h | h | h <;> simp at h

theorem inv_step {args : Handoff} {sp0 : Word} {es : List Event} {s : St} {e : Event} {s' : St}
    (hInv : Inv args sp0 es s) (hStep : Step s e s') :
    Inv args sp0 (es ++ [e]) s' := by
  obtain ⟨hsp, hargs, hr9, hshape⟩ := hInv
  cases hStep with
  | mov h =>
    rw [h] at hshape
    rcases hshape with ⟨he, -⟩ | ⟨-, hl⟩ | ⟨-, hl⟩ | ⟨rv, n, -, hl⟩ | ⟨rv, n, -, hl⟩ |
      ⟨rv, n, -, hl⟩ <;> try exact absurd hl (by simp)
    subst he
    exact ⟨hsp, hargs, Or.inr ⟨by simp, by simp [hsp]⟩,
      Or.inr (Or.inl ⟨by simp [hsp], rfl⟩)⟩
  | callMain h =>
    rw [h] at hshape
    rcases hshape with ⟨-, hl⟩ | ⟨he, -⟩ | ⟨-, hl⟩ | ⟨rv, n, -, hl⟩ | ⟨rv, n, -, hl⟩ |
      ⟨rv, n, -, hl⟩ <;> try exact absurd hl (by simp)
    subst he
    rcases hr9 with ⟨h0, -⟩ | ⟨-, hr⟩
    · rw [h] at h0; exact absurd h0 (by simp)
    · exact ⟨hsp, hargs, Or.inr ⟨by simp, by simpa using hr⟩,
        Or.inr (Or.inr (Or.inl ⟨by simp, rfl⟩))⟩
  | retMain rv h =>
    rw [h] at hshape
    rcases hshape with ⟨-, hl⟩ | ⟨-, hl⟩ | ⟨he, hl2⟩ | ⟨rv', n, -, hl⟩ | ⟨rv', n, -, hl⟩ |
      ⟨rv', n, -, hl⟩ <;> try exact absurd hl (by simp)
    subst he
    have hr2 : (2 : Nat) = _ := (Loc.inMain.inj hl2).symm
    rcases hr9 with ⟨h0, -⟩ | ⟨-, hr⟩
    · rw [h] at h0; exact absurd h0 (by simp)
    · refine ⟨hsp, hargs, Or.inr ⟨by simp [← hr2], by simpa using hr⟩, ?_⟩
      refine Or.inr (Or.inr (Or.inr (Or.inl ⟨rv, 0, by simp [pre3, cycles], ?_⟩)))
      simp [← hr2]
  | callYield h =>
    rw [h] at hshape
    rcases hshape with ⟨-, hl⟩ | ⟨-, hl⟩ | ⟨-, hl⟩ | ⟨rv, n, he, -⟩ | ⟨rv, n, -, hl⟩ |
      ⟨rv, n, -, hl⟩ <;> try exact absurd hl (by simp)
    subst he
    rcases hr9 with ⟨h0, -⟩ | ⟨-, hr⟩
    · rw [h] at h0; exact absurd h0 (by simp)
    · refine ⟨hsp, hargs, Or.inr ⟨by simp, by simpa using hr⟩, ?_⟩
      exact Or.inr (Or.inr (Or.inr (Or.inr (Or.inl
        ⟨rv, n, by simp [List.append_assoc], rfl⟩))))
  | retYield h =>
    rw [h] at hshape
    rcases hshape with ⟨-, hl⟩ | ⟨-, hl⟩ | ⟨-, hl⟩ | ⟨rv, n, -, hl⟩ | ⟨rv, n, he, hl2⟩ |
      ⟨rv, n, -, hl⟩ <;> try exact absurd hl (by simp)
    subst he
    have hr3 : (3 : Nat) = _ := (Loc.inYield.inj hl2).symm
    rcases hr9 with ⟨h0, -⟩ | ⟨-, hr⟩
    · rw [h] at h0; exact absurd h0 (by simp)
    · refine ⟨hsp, hargs, Or.inr ⟨by simp [← hr3], by simpa using hr⟩, ?_⟩
      refine Or.inr (Or.inr (Or.inr (Or.inr (Or.inr
        ⟨rv, n, by simp [List.append_assoc], ?_⟩))))
      simp [← hr3]
  | branch h =>
    rw [h] at hshape
    rcases hshape with ⟨-, hl⟩ | ⟨-, hl⟩ | ⟨-, hl⟩ | ⟨rv, n, -, hl⟩ | ⟨rv, n, -, hl⟩ |
      ⟨rv, n, he, -⟩ <;> try exact absurd hl (by simp)
    subst he
    rcases hr9 with ⟨h0, -⟩ | ⟨-, hr⟩
    · rw [h] at h0; exact absurd h0 (by simp)
    · refine ⟨hsp, hargs, Or.inr ⟨by simp, by simpa using hr⟩, ?_⟩
      refine Or.inr (Or.inr (Or.inr (Or.inl ⟨rv, n + 1, ?_, rfl⟩)))
      simp [cycles, List.append_assoc]
  | deadCallMain h =>
    rw [h] at hshape
    exact absurd hshape (by simp [shapeOf])
  | deadCallYield h =>
    rw [h] at hshape
    exact absurd hshape (by simp [shapeOf])
  | fallOff h =>
    rw [h] at hshape
    exact absurd hshape (by simp [shapeOf])
  | dummyCallMain h =>
    rw [h] at hshape
    exact absurd hshape (by simp [shapeOf])
  | dummyCallYield h =>
    rw [h] at hshape
    exact absurd hshape (by simp [shapeOf])
  | dummyRet h =>
    rw [h] at hshape
    exact absurd hshape (by simp [shapeOf])

theorem inv_init (args : Handoff) (sp0 : Word) : Inv args sp0 [] (initSt args sp0) := by
  refine ⟨rfl, rfl, Or.inl ⟨rfl, rfl⟩, Or.inl ⟨rfl, rfl⟩⟩

theorem inv_trace {args : Handoff} {sp0 : Word} {s : St} {es : List Event} {s' : St}
    (h : Trace s es s') {es₀ : List Event} (hInv : Inv args sp0 es₀ s) :
    Inv args sp0 (es₀ ++ es) s' := by
  induction h generalizing es₀ with
  | refl => simpa using hInv
  | cons hs _ ih =>
    have := ih (inv_step hInv hs)
    simpa [List.append_assoc] using this

theorem reach_inv {args : Handoff} {sp0 : Word} {es : List Event} {s' : St}
    (h : Trace (initSt args sp0) es s') : Inv args sp0 es s' := by
  simpa using inv_trace h (inv_init args sp0)

theorem loop_step {s : St} {e : Event} {s' : St} (hs : InLoop s) (h : Step s e s') :
    InLoop s' ∧ (e = .callYield ∨ e = .retYield ∨ e = .branch) ∧
      s'.r9 = s.r9 ∧ s'.sp = s.sp ∧ s'.args = s.args := by
  cases h with
  | mov h => simp [InLoop, h] at hs
  | callMain h => simp [InLoop, h] at hs
  | retMain rv h => simp [InLoop, h] at hs
  | callYield h => exact ⟨Or.inr (Or.inl rfl), Or.inl rfl, rfl, rfl, rfl⟩
  | retYield h =>
    simp [InLoop, h] at hs
    refine ⟨Or.inr (Or.inr ?_), Or.inr (Or.inl rfl), rfl, rfl, rfl⟩
    simp [hs]
  | branch h => exact ⟨Or.inl rfl, Or.inr (Or.inr rfl), rfl, rfl, rfl⟩
  | deadCallMain h => simp [InLoop, h] at hs
  | deadCallYield h => simp [InLoop, h] at hs
  | fallOff h => simp [InLoop, h] at hs
  | dummyCallMain h => simp [InLoop, h] at hs
  | dummyCallYield h => simp [InLoop, h] at hs
  | dummyRet h => simp [InLoop, h] at hs

theorem loop_trace {s : St} {es : List Event} {s' : St} (h : Trace s es s')
    (hs : InLoop s) :
    InLoop s' ∧ ∀ e ∈ es, e = .callYield ∨ e = .retYield ∨ e = .branch := by
  induction h with
  | refl => exact ⟨hs, by simp⟩
  | cons hstep _ ih =>
    obtain ⟨h1, h2, -⟩ := loop_step hs hstep
    obtain ⟨h3, h4⟩ := ih h1
    exact ⟨h3, by simpa using And.intro h2 h4⟩

theorem step_from_instr2 {s : St} {e : Event} {s' : St} (h : Step s e s')
    (hl : s.loc = .instr 2) :
    e = .callYield ∧ s' = { s with loc := .inYield 3 } := by
  cases h with
  | mov h => rw [hl] at h; exact absurd h (by simp)
  | callMain h => rw [hl] at h; exact absurd h (by simp)
  | retMain rv h => rw [hl] at h; exact absurd h (by simp)
  | callYield h => exact ⟨rfl, rfl⟩
  | retYield h => rw [hl] at h; exact absurd h (by simp)
  | branch h => rw [hl] at h; exact absurd h (by simp)
  | deadCallMain h => rw [hl] at h; exact absurd h (by simp)
  | deadCallYield h => rw [hl] at h; exact absurd h (by simp)
  | fallOff h => rw [hl] at h; exact absurd h (by simp)
  | dummyCallMain h => rw [hl] at h; exact absurd h (by simp)
  | dummyCallYield h => rw [hl] at h; exact absurd h (by simp)
  | dummyRet h => rw [hl] at h; exact absurd h (by simp)

theorem step_callMain_loc {s : St} {s' : St} (h : Step s .callMain s') :
    s.loc = .instr 1 ∨ s.loc = .instr 4 ∨ s.loc = .instr 7 := by
  cases h with
  | callMain h => exact Or.inl h
  | deadCallMain h => exact Or.inr (Or.inl h)
  | dummyCallMain h => exact Or.inr (Or.inr h)

theorem step_retMain_inv {s : St} {rv : Int} {s' : St} (h : Step s (.retMain rv) s') :
    ∃ r, s.loc = .inMain r ∧ s' = { s with loc := .instr r } := by
  cases h with
  | retMain rv h => exact ⟨_, h, rfl⟩

theorem cycle_trace {s : St} (h : s.loc = .instr 2) :
    Trace s [.callYield, .retYield, .branch] s := by
  have hself : { s with loc := Loc.instr 2 } = s := by
    cases s; simp_all
  refine Trace.cons (Step.callYield h) (Trace.cons (Step.retYield rfl) ?_)
  have hb : Step { s with loc := Loc.instr 3 } Event.branch
      { s with loc := Loc.instr 2 } := Step.branch rfl
  rw [hself] at hb
  exact Trace.cons hb (Trace.refl s)

theorem cycles_trace {s : St} (h : s.loc = .instr 2) (n : Nat) :
    Trace s (cycles n) s := by
  induction n with
  | zero => exact Trace.refl s
  | succ n ih => exact trace_append ih (cycle_trace h)

theorem writeR9_notMem_cycles (v : Word) (n : Nat) : Event.writeR9 v ∉ cycles n := by
  intro h
  rcases mem_cycles h with h | h | h <;> simp at h

theorem callMain_notMem_cycles (n : Nat) : Event.callMain ∉ cycles n := by
  intro h
  rcases mem_cycles h with h | h | h <;> simp at h

/-- Claim C1: for every handoff triple and initial stack pointer, no execution of
`_start` ever returns control to the caller: every reachable state is still
inside the trampoline (initialization, the call of `main`, or the yield
loop) and always has a next step, so control either stays inside `main`
forever or ends in the yield loop. -/
theorem start_never_returns (args : Handoff) (sp0 : Word) (es : List Event) (s' : St)
    (h : Trace (initSt args sp0) es s') :
    s'.loc ≠ Loc.returned ∧
      (s'.loc = .instr 0 ∨ s'.loc = .instr 1 ∨ s'.loc = .inMain 2 ∨ InLoop s') ∧
      ∃ e s'', Step s' e s'' := by
  obtain ⟨hsp, hargs, hr9, hshape⟩ := reach_inv h
  rcases hshape with ⟨-, hl⟩ | ⟨-, hl⟩ | ⟨-, hl⟩ | ⟨rv, n, -, hl⟩ | ⟨rv, n, -, hl⟩ |
    ⟨rv, n, -, hl⟩
  · exact ⟨by simp [hl], Or.inl hl, _, _, Step.mov hl⟩
  · exact ⟨by simp [hl], Or.inr (Or.inl hl), _, _, Step.callMain hl⟩
  · exact ⟨by simp [hl], Or.inr (Or.inr (Or.inl hl)), _, _, Step.retMain 0 hl⟩
  · exact ⟨by simp [hl], Or.inr (Or.inr (Or.inr (Or.inl hl))), _, _, Step.callYield hl⟩
  · exact ⟨by simp [hl], Or.inr (Or.inr (Or.inr (Or.inr (Or.inl hl)))), _, _,
      Step.retYield hl⟩
  · exact ⟨by simp [hl], Or.inr (Or.inr (Or.inr (Or.inr (Or.inr hl)))), _, _,
      Step.branch hl⟩

theorem start_never_returns_witness :
    (initSt ⟨4096, 8192, 12288⟩ 0).loc ≠ Loc.returned ∧
      ((initSt ⟨4096, 8192, 12288⟩ 0).loc = .instr 0 ∨
        (initSt ⟨4096, 8192, 12288⟩ 0).loc = .instr 1 ∨
        (initSt ⟨4096, 8192, 12288⟩ 0).loc = .inMain 2 ∨
        InLoop (initSt ⟨4096, 8192, 12288⟩ 0)) ∧
      ∃ e s'', Step (initSt ⟨4096, 8192, 12288⟩ 0) e s'' :=
  start_never_returns ⟨4096, 8192, 12288⟩ 0 [] _ (Trace.refl _)

/-- Claim C2: from the entry of the yield loop (pc 2), every continuation stays
in the loop and emits only yield calls, yield returns and the back branch,
and for every `n` there is a continuation performing exactly `n` further
yield calls: the loop is absorbing and issues an unbounded sequence of
yield calls. -/
theorem yield_loop_forever (s : St) (h : s.loc = .instr 2) :
    (∀ es s', Trace s es s' → InLoop s' ∧
      ∀ e ∈ es, e = Event.callYield ∨ e = Event.retYield ∨ e = Event.branch) ∧
    (∀ n : Nat, Trace s (cycles n) s ∧ (cycles n).count Event.callYield = n) := by
  refine ⟨fun es s' ht => loop_trace ht (Or.inl h), fun n => ?_⟩
  exact ⟨cycles_trace h n, count_callYield_cycles n⟩

theorem yield_loop_forever_witness :
    Trace ⟨Loc.instr 2, some 0, 0, ⟨4096, 8192, 12288⟩⟩ (cycles 2)
      ⟨Loc.instr 2, some 0, 0, ⟨4096, 8192, 12288⟩⟩ ∧
    (cycles 2).count Event.callYield = 2 :=
  (yield_loop_forever ⟨Loc.instr 2, some 0, 0, ⟨4096, 8192, 12288⟩⟩ rfl).2 2

/-- Claim C3: in every execution of the trampoline, any call of `main` is
strictly preceded by the write of the initial stack pointer into r9: the
prefix of the trace before a `callMain` event always contains the
`writeR9` event. -/
theorem r9_written_before_main (args : Handoff) (sp0 : Word) (es₁ es₂ : List Event)
    (s' : St) (h : Trace (initSt args sp0) (es₁ ++ Event.callMain :: es₂) s') :
    Event.writeR9 sp0 ∈ es₁ := by
  obtain ⟨sm, sm', h1, hstep, h2⟩ := trace_append_inv es₁ h
  obtain ⟨hsp, hargs, hr9, hshape⟩ := reach_inv h1
  rcases step_callMain_loc hstep with hl | hl | hl
  · rw [hl] at hshape
    rcases hshape with ⟨-, hc⟩ | ⟨he, -⟩ | ⟨-, hc⟩ | ⟨rv, n, -, hc⟩ | ⟨rv, n, -, hc⟩ |
      ⟨rv, n, -, hc⟩ <;> try exact absurd hc (by simp)
    subst he
    simp
  · rw [hl] at hshape
    exact absurd hshape (by simp [shapeOf])
  · rw [hl] at hshape
    exact absurd hshape (by simp [shapeOf])

theorem r9_written_before_main_witness :
    Event.writeR9 0 ∈ [Event.writeR9 0] :=
  r9_written_before_main ⟨4096, 8192, 12288⟩ 0 [Event.writeR9 0] [] _
    (Trace.cons (Step.mov rfl) (Trace.cons (Step.callMain rfl) (Trace.refl _)))

/-- Claim C5: the first step of the trampoline from any start state is exactly
the write into r9 of the value of the stack pointer at entry (`mov r9,
sp`), so afterwards r9 holds the initial stack pointer, above which the
kernel placed the GOT. -/
theorem r9_gets_initial_sp (args : Handoff) (sp0 : Word) (e : Event) (s' : St)
    (h : Step (initSt args sp0) e s') :
    e = Event.writeR9 sp0 ∧ s'.r9 = some sp0 ∧ s'.sp = sp0 := by
  cases h with
  | mov h => exact ⟨rfl, rfl, rfl⟩
  | callMain h => simp [initSt] at h
  | retMain rv h => simp [initSt] at h
  | callYield h => simp [initSt] at h
  | retYield h => simp [initSt] at h
  | branch h => simp [initSt] at h
  | deadCallMain h => simp [initSt] at h
  | deadCallYield h => simp [initSt] at h
  | fallOff h => simp [initSt] at h
  | dummyCallMain h => simp [initSt] at h
  | dummyCallYield h => simp [initSt] at h
  | dummyRet h => simp [initSt] at h

theorem r9_gets_initial_sp_witness :
    Event.writeR9 7 = Event.writeR9 7 ∧
      (⟨Loc.instr 1, some 7, 7, ⟨4096, 8192, 12288⟩⟩ : St).r9 = some 7 ∧
      (⟨Loc.instr 1, some 7, 7, ⟨4096, 8192, 12288⟩⟩ : St).sp = 7 :=
  r9_gets_initial_sp ⟨4096, 8192, 12288⟩ 7 _ _ (Step.mov rfl)

theorem loop_yields_again {s : St} (hs : InLoop s) :
    ∃ es s', Trace s es s' ∧ Event.callYield ∈ es := by
  rcases hs with h | h | h
  · exact ⟨_, _, cycle_trace h, by simp⟩
  · exact ⟨[Event.retYield, Event.branch, Event.callYield], _,
      Trace.cons (Step.retYield h)
        (Trace.cons (Step.branch rfl) (Trace.cons (Step.callYield rfl) (Trace.refl _))),
      by simp⟩
  · exact ⟨[Event.branch, Event.callYield], _,
      Trace.cons (Step.branch h) (Trace.cons (Step.callYield rfl) (Trace.refl _)),
      by simp⟩

/-- Claim C4: whenever `main` returns (any value `rv`, at any point of a trace),
everything the trampoline does afterwards is yield activity (no application
code runs again), the very next action is a yield call, and a yield call is
always still issued in some continuation. -/
theorem main_return_then_yield (args : Handoff) (sp0 : Word) (rv : Int)
    (es₁ es₂ : List Event) (s' : St)
    (h : Trace (initSt args sp0) (es₁ ++ Event.retMain rv :: es₂) s') :
    (∀ e ∈ es₂, e = Event.callYield ∨ e = Event.retYield ∨ e = Event.branch) ∧
    (∀ e es₃, es₂ = e :: es₃ → e = Event.callYield) ∧
    (∃ es₄ s'', Trace s' es₄ s'' ∧ Event.callYield ∈ es₄) := by
  obtain ⟨sm, sm', h1, hstep, h2⟩ := trace_append_inv es₁ h
  obtain ⟨r, hloc, hsm'⟩ := step_retMain_inv hstep
  obtain ⟨-, -, -, hshape⟩ := reach_inv h1
  rw [hloc] at hshape
  rcases hshape with ⟨-, hc⟩ | ⟨-, hc⟩ | ⟨-, hc2⟩ | ⟨rv', n, -, hc⟩ | ⟨rv', n, -, hc⟩ |
    ⟨rv', n, -, hc⟩ <;> try exact absurd hc (by simp)
  have hr2 : r = 2 := Loc.inMain.inj hc2
  subst hr2
  subst hsm'
  have hloop : InLoop { sm with loc := Loc.instr 2 } := Or.inl rfl
  obtain ⟨hloop', hev⟩ := loop_trace h2 hloop
  refine ⟨hev, ?_, loop_yields_again hloop'⟩
  intro e es₃ hes
  subst hes
  obtain ⟨t, hst, -⟩ := trace_cons_inv h2
  exact (step_from_instr2 hst rfl).1

theorem main_return_then_yield_witness :
    ∃ es₄ s'', Trace (⟨Loc.instr 2, some 0, 0, ⟨4096, 8192, 12288⟩⟩ : St) es₄ s'' ∧
      Event.callYield ∈ es₄ :=
  (main_return_then_yield ⟨4096, 8192, 12288⟩ 0 0 [Event.writeR9 0, Event.callMain] []
    ⟨Loc.instr 2, some 0, 0, ⟨4096, 8192, 12288⟩⟩
    (Trace.cons (Step.mov rfl) (Trace.cons (Step.callMain rfl)
      (Trace.cons (Step.retMain 0 rfl) (Trace.refl _))))).2.2

/-- Replace the handoff parameters of a state, leaving everything else. -/
def setArgs (s : St) (b : Handoff) : St := { s with args := b }

theorem step_setArgs {s : St} {e : Event} {s' : St} (b : Handoff) (h : Step s e s') :
    Step (setArgs s b) e (setArgs s' b) := by
  cases h with
  | mov h => exact Step.mov h
  | callMain h => exact Step.callMain h
  | retMain rv h => exact Step.retMain rv h
  | callYield h => exact Step.callYield h
  | retYield h => exact Step.retYield h
  | branch h => exact Step.branch h
  | deadCallMain h => exact Step.deadCallMain h
  | deadCallYield h => exact Step.deadCallYield h
  | fallOff h => exact Step.fallOff h
  | dummyCallMain h => exact Step.dummyCallMain h
  | dummyCallYield h => exact Step.dummyCallYield h
  | dummyRet h => exact Step.dummyRet h

theorem trace_setArgs {s : St} {es : List Event} {s' : St} (b : Handoff)
    (h : Trace s es s') : Trace (setArgs s b) es (setArgs s' b) := by
  induction h with
  | refl => exact Trace.refl _
  | cons hs _ ih => exact Trace.cons (step_setArgs b hs) ih

/-- Claim C6: the trampoline never reads its three handoff parameters: any trace
from a start state with parameters `a` is also, event for event and state
for state (up to the stored parameters themselves), a trace from the start
state with any other parameters `b`. -/
theorem handoff_independence (a b : Handoff) (sp0 : Word) (es : List Event) (s' : St)
    (h : Trace (initSt a sp0) es s') :
    s'.args = a ∧ Trace (initSt b sp0) es (setArgs s' b) := by
  exact ⟨(reach_inv h).2.1, trace_setArgs b h⟩

theorem handoff_independence_witness :
    (⟨Loc.instr 1, some 3, 3, ⟨4096, 8192, 12288⟩⟩ : St).args = ⟨4096, 8192, 12288⟩ ∧
    Trace (initSt ⟨1, 2, 3⟩ 3) [Event.writeR9 3]
      (setArgs ⟨Loc.instr 1, some 3, 3, ⟨4096, 8192, 12288⟩⟩ ⟨1, 2, 3⟩) :=
  handoff_independence ⟨4096, 8192, 12288⟩ ⟨1, 2, 3⟩ 3 [Event.writeR9 3]
    ⟨Loc.instr 1, some 3, 3, ⟨4096, 8192, 12288⟩⟩
    (Trace.cons (Step.mov rfl) (Trace.refl _))

/-- Claim C7: the trampoline's own side effects are exactly one register write
(r9, written at most once, always with the initial stack pointer, and never
mutated afterwards) plus the calls it makes; the stack pointer and the
handoff parameters are never touched, and no other state exists to mutate. -/
theorem frame_effects (args : Handoff) (sp0 : Word) (es : List Event) (s' : St)
    (h : Trace (initSt args sp0) es s') :
    es.countP isWrite ≤ 1 ∧
    (∀ v, Event.writeR9 v ∈ es → v = sp0) ∧
    s'.sp = sp0 ∧ s'.args = args ∧
    (s'.r9 = none ∨ s'.r9 = some sp0) ∧
    (∀ es₂ s₂, Trace s' es₂ s₂ → s'.r9 = some sp0 → s₂.r9 = some sp0) := by
  obtain ⟨hsp, hargs, hr9, hshape⟩ := reach_inv h
  refine ⟨?_, ?_, hsp, hargs, ?_, ?_⟩
  · rcases hshape with ⟨he, -⟩ | ⟨he, -⟩ | ⟨he, -⟩ | ⟨rv, n, he, -⟩ | ⟨rv, n, he, -⟩ |
      ⟨rv, n, he, -⟩ <;> subst he <;>
      simp [pre3, isWrite, List.countP_append, List.countP_cons, countP_isWrite_cycles]
  · intro v hv
    rcases hshape with ⟨he, -⟩ | ⟨he, -⟩ | ⟨he, -⟩ | ⟨rv, n, he, -⟩ | ⟨rv, n, he, -⟩ |
      ⟨rv, n, he, -⟩ <;> subst he <;>
      simp [pre3, writeR9_notMem_cycles] at hv <;> exact hv
  · rcases hr9 with ⟨-, h0⟩ | ⟨-, h0⟩
    · exact Or.inl h0
    · exact Or.inr h0
  · intro es₂ s₂ h₂ hr
    obtain ⟨-, -, hr9₂, hshape₂⟩ := reach_inv (trace_append h h₂)
    rcases hr9₂ with ⟨hl0, -⟩ | ⟨-, hsome⟩
    · have henil : es ++ es₂ = [] := by
        rcases hshape₂ with ⟨he, -⟩ | ⟨-, hc⟩ | ⟨-, hc⟩ | ⟨rv, n, -, hc⟩ | ⟨rv, n, -, hc⟩ |
          ⟨rv, n, -, hc⟩
        · exact he
        all_goals (rw [hl0] at hc; exact absurd hc (by simp))
      have hes₂ : es₂ = [] := (List.append_eq_nil.mp henil).2
      subst hes₂
      rw [trace_nil_eq h₂]
      exact hr
    · exact hsome

theorem frame_effects_witness :
    [Event.writeR9 5].countP isWrite ≤ 1 ∧
    (∀ v, Event.writeR9 v ∈ [Event.writeR9 5] → v = 5) ∧
    (⟨Loc.instr 1, some 5, 5, ⟨4096, 8192, 12288⟩⟩ : St).sp = 5 ∧
    (⟨Loc.instr 1, some 5, 5, ⟨4096, 8192, 12288⟩⟩ : St).args = ⟨4096, 8192, 12288⟩ ∧
    ((⟨Loc.instr 1, some 5, 5, ⟨4096, 8192, 12288⟩⟩ : St).r9 = none ∨
      (⟨Loc.instr 1, some 5, 5, ⟨4096, 8192, 12288⟩⟩ : St).r9 = some 5) ∧
    (∀ es₂ s₂, Trace (⟨Loc.instr 1, some 5, 5, ⟨4096, 8192, 12288⟩⟩ : St) es₂ s₂ →
      (⟨Loc.instr 1, some 5, 5, ⟨4096, 8192, 12288⟩⟩ : St).r9 = some 5 →
      s₂.r9 = some 5) :=
  frame_effects ⟨4096, 8192, 12288⟩ 5 [Event.writeR9 5]
    ⟨Loc.instr 1, some 5, 5, ⟨4096, 8192, 12288⟩⟩
    (Trace.cons (Step.mov rfl) (Trace.refl _))

/-- Claim C8: a trace of the trampoline in which `main` has not returned (no
`retMain` event, covering the case that `main` diverges) contains no yield
call by the trampoline. -/
theorem divergence_no_yield (args : Handoff) (sp0 : Word) (es : List Event) (s' : St)
    (h : Trace (initSt args sp0) es s') (hdiv : ∀ rv : Int, Event.retMain rv ∉ es) :
    Event.callYield ∉ es := by
  obtain ⟨-, -, -, hshape⟩ := reach_inv h
  rcases hshape with ⟨he, -⟩ | ⟨he, -⟩ | ⟨he, -⟩ | ⟨rv, n, he, -⟩ | ⟨rv, n, he, -⟩ |
    ⟨rv, n, he, -⟩
  · subst he; simp
  · subst he; simp
  · subst he; simp
  all_goals exact absurd (show Event.retMain rv ∈ es by rw [he]; simp [pre3]) (hdiv rv)

theorem divergence_no_yield_witness :
    Event.callYield ∉ [Event.writeR9 0, Event.callMain] :=
  divergence_no_yield ⟨4096, 8192, 12288⟩ 0 [Event.writeR9 0, Event.callMain] _
    (Trace.cons (Step.mov rfl) (Trace.cons (Step.callMain rfl) (Trace.refl _)))
    (by simp)

/-- Claim C9: the call of `main` is a normal call: in any reachable state inside
`main` the recorded return position is pc 2 (the instruction after the
`bl`), for every result value `rv` the return step back into the trampoline
exists, and the state after the return is the same whatever `rv` is (the
result is ignored). -/
theorem main_called_normally (args : Handoff) (sp0 : Word) (es : List Event) (s : St)
    (r : Nat) (h : Trace (initSt args sp0) es s) (hloc : s.loc = .inMain r) :
    r = 2 ∧
    (∀ rv : Int, Step s (.retMain rv) { s with loc := .instr 2 }) ∧
    (∀ (rv : Int) (s' : St), Step s (.retMain rv) s' →
      s' = { s with loc := .instr 2 }) := by
  obtain ⟨-, -, -, hshape⟩ := reach_inv h
  rw [hloc] at hshape
  rcases hshape with ⟨-, hc⟩ | ⟨-, hc⟩ | ⟨-, hc2⟩ | ⟨rv', n, -, hc⟩ | ⟨rv', n, -, hc⟩ |
    ⟨rv', n, -, hc⟩ <;> try exact absurd hc (by simp)
  have hr2 : r = 2 := Loc.inMain.inj hc2
  subst hr2
  refine ⟨rfl, fun rv => Step.retMain rv hloc, fun rv s' hstep => ?_⟩
  obtain ⟨r', hl', hs'⟩ := step_retMain_inv hstep
  rw [hloc] at hl'
  have h2r : (2 : Nat) = r' := Loc.inMain.inj hl'
  rw [hs', ← h2r]

theorem main_called_normally_witness :
    2 = 2 ∧
    (∀ rv : Int, Step (⟨Loc.inMain 2, some 0, 0, ⟨4096, 8192, 12288⟩⟩ : St)
      (.retMain rv) (⟨Loc.instr 2, some 0, 0, ⟨4096, 8192, 12288⟩⟩ : St)) ∧
    (∀ (rv : Int) (s' : St),
      Step (⟨Loc.inMain 2, some 0, 0, ⟨4096, 8192, 12288⟩⟩ : St) (.retMain rv) s' →
      s' = (⟨Loc.instr 2, some 0, 0, ⟨4096, 8192, 12288⟩⟩ : St)) :=
  main_called_normally ⟨4096, 8192, 12288⟩ 0 [Event.writeR9 0, Event.callMain]
    ⟨Loc.inMain 2, some 0, 0, ⟨4096, 8192, 12288⟩⟩ 2
    (Trace.cons (Step.mov rfl) (Trace.cons (Step.callMain rfl) (Trace.refl _))) rfl

/-- Claim C10: the C-level code after the inline assembly (pc 4 and beyond) and
the body of `lto_asm_references_dummy_function` (pc 7 and beyond) are never
reached: no reachable location is an instruction position at or past 4, the
only call states are the live ones, and `main` is called at most once in
any trace and exactly once as soon as control has passed the `bl main`. -/
theorem dead_code_never_runs (args : Handoff) (sp0 : Word) (es : List Event) (s' : St)
    (h : Trace (initSt args sp0) es s') :
    (∀ k, 4 ≤ k → s'.loc ≠ .instr k) ∧
    (∀ r, s'.loc = .inMain r → r = 2) ∧
    (∀ r, s'.loc = .inYield r → r = 3) ∧
    es.count Event.callMain ≤ 1 ∧
    (s'.loc ≠ .instr 0 → s'.loc ≠ .instr 1 → es.count Event.callMain = 1) := by
  obtain ⟨-, -, -, hshape⟩ := reach_inv h
  rcases hshape with ⟨he, hl⟩ | ⟨he, hl⟩ | ⟨he, hl⟩ | ⟨rv, n, he, hl⟩ | ⟨rv, n, he, hl⟩ |
    ⟨rv, n, he, hl⟩ <;> subst he <;>
    refine ⟨fun k hk => by rw [hl]; simp <;> omega,
      fun r hr => by rw [hl] at hr; simp at hr <;> omega,
      fun r hr => by rw [hl] at hr; simp at hr <;> omega,
      by simp [pre3, List.count_append, count_callMain_cycles, List.count_cons],
      fun h0 h1 => by
        first
        | exact absurd hl h0
        | exact absurd hl h1
        | simp [pre3, List.count_append, count_callMain_cycles, List.count_cons]⟩

theorem dead_code_never_runs_witness :
    (∀ k, 4 ≤ k → (⟨Loc.inMain 2, some 0, 0, ⟨4096, 8192, 12288⟩⟩ : St).loc ≠
      .instr k) ∧
    (∀ r, (⟨Loc.inMain 2, some 0, 0, ⟨4096, 8192, 12288⟩⟩ : St).loc = .inMain r →
      r = 2) ∧
    (∀ r, (⟨Loc.inMain 2, some 0, 0, ⟨4096, 8192, 12288⟩⟩ : St).loc = .inYield r →
      r = 3) ∧
    [Event.writeR9 0, Event.callMain].count Event.callMain ≤ 1 ∧
    ((⟨Loc.inMain 2, some 0, 0, ⟨4096, 8192, 12288⟩⟩ : St).loc ≠ .instr 0 →
      (⟨Loc.inMain 2, some 0, 0, ⟨4096, 8192, 12288⟩⟩ : St).loc ≠ .instr 1 →
      [Event.writeR9 0, Event.callMain].count Event.callMain = 1) :=
  dead_code_never_runs ⟨4096, 8192, 12288⟩ 0 [Event.writeR9 0, Event.callMain]
    ⟨Loc.inMain 2, some 0, 0, ⟨4096, 8192, 12288⟩⟩
    (Trace.cons (Step.mov rfl) (Trace.cons (Step.callMain rfl) (Trace.refl _)))

end Crt1
